import Mathlib

/-!
Shallow embedding of `src/Source/dynamic_bitset.hpp` (template class
`dynamic_bitset<N>` storing a `std::vector<bool> bits_`).

A bitset value is modelled as a `List Bool` (the contents of `bits_`, index 0
first, i.e. MSB first).  The template parameter `N` becomes an explicit `Nat`
argument of the constructor models.  `std::size_t` arithmetic is modelled as
`Nat` with explicit `% 2 ^ 64` where wrap-around can occur, and `int` as `Int`.
Bounds-checked accesses (`std::vector::at`) are modelled with `Except`;
unchecked accesses (`std::vector<bool>::operator[]`) that may go out of range
are modelled as an error outcome, standing for the undefined behaviour of the
C++ source.
-/

namespace DynBitset

/-- Modulus of `std::size_t` on the 64-bit host the spec assumes. -/
def wordMod : Nat := 2 ^ 64

/-- Loop body of `add_padding`: `for (int i = 0; i < number_of_padding; ++i)
base.insert(base.begin(), 0);` — each iteration inserts one `false` at the
front; `c` is the number of iterations still to run. -/
def add_paddingAux : List Bool → Nat → List Bool
  | base, 0 => base
  | base, Nat.succ c => add_paddingAux (false :: base) c

/-- `add_padding(std::vector<bool> &base, int number_of_padding)`: the loop
runs `max(number_of_padding, 0)` times (an `int` trip count; non-positive
counts run zero iterations). -/
def add_padding (base : List Bool) (number_of_padding : Int) : List Bool :=
  add_paddingAux base number_of_padding.toNat

/-- Loop of `int_to_binary`: `while (value > 0) { temp.insert(temp.begin(),
value % 2); value /= 2; }`, written with a fuel argument (`value` itself is
enough fuel, since the value is at least halved each iteration). -/
def int_to_binaryLoop : Nat → Nat → List Bool
  | 0, _ => []
  | Nat.succ f, value =>
    if 0 < value then int_to_binaryLoop f (value / 2) ++ [decide (value % 2 = 1)]
    else []

/-- `int_to_binary(int value)`: the `while` loop above, then
`if (temp.empty()) temp.emplace_back(value);` where the `int`→`bool` cast is
`value != 0`. -/
def int_to_binary (value : Int) : List Bool :=
  let temp := if 0 < value then int_to_binaryLoop value.toNat value.toNat else []
  if temp = [] then [decide (value ≠ 0)] else temp

/-- Constructor `dynamic_bitset<N>(std::vector<bool> binaries)`:
`number_of_padding = bits_.size() - binaries.size()` with `bits_.size() = N`,
then `add_padding(binaries, number_of_padding); bits_ = binaries;`. -/
def fromVector (N : Nat) (binaries : List Bool) : List Bool :=
  add_padding binaries ((N : Int) - (binaries.length : Int))

/-- Constructor `dynamic_bitset<N>(int value)`: `binary = int_to_binary(value)`,
pad with `N - binary.size()` leading zeros. -/
def fromInt (N : Nat) (value : Int) : List Bool :=
  let binary := int_to_binary value
  add_padding binary ((N : Int) - (binary.length : Int))

/-- `string_to_bitset(const std::string &binary_string)` (called with
`bits_.size() = N`): map each character to `c == '1'`, then pad. -/
def string_to_bitset (N : Nat) (binary_string : List Char) : List Bool :=
  add_padding (binary_string.map fun c => decide (c = '1'))
    ((N : Int) - (binary_string.length : Int))

/-- Constructor `dynamic_bitset<N>(const std::string &)`:
`bits_ = string_to_bitset(binary_string)`. -/
def fromString (N : Nat) (binary_string : List Char) : List Bool :=
  string_to_bitset N binary_string

/-- `to_string()`: push `'1'` for a true bit, `'0'` otherwise, MSB first. -/
def to_string (bits : List Bool) : List Char :=
  bits.map fun bit => if bit = true then '1' else '0'

/-- `all()`: `std::all_of(begin, end, [](bool b){ return b; })`. -/
def allQ (bits : List Bool) : Bool := bits.all fun b => b

/-- `any()`: `std::any_of(begin, end, [](bool b){ return b; })`. -/
def anyQ (bits : List Bool) : Bool := bits.any fun b => b

/-- `none()`: `std::none_of(begin, end, [](bool b){ return b; })` — true when
no element satisfies the predicate. -/
def noneQ (bits : List Bool) : Bool := bits.all fun b => !b

/-- Loop of `to_ulong()`: iterate from `rbegin()` (LSB first); `value` and
`power` are `std::size_t`, so `value += power` and `power *= 2` wrap modulo
`2 ^ 64`. -/
def to_ulongAux : List Bool → Nat → Nat → Nat
  | [], value, _ => value
  | bit :: rest, value, power =>
    to_ulongAux rest (if bit then (value + power) % wordMod else value)
      ((power * 2) % wordMod)

/-- `to_ulong()`: start with `value = 0`, `power = 1`, scan LSB to MSB. -/
def to_ulong (bits : List Bool) : Nat := to_ulongAux bits.reverse 0 1

/-- `operator[](std::size_t index) const`: `bits_.at(index)` — bounds-checked,
throws (`IndexOutOfBounds`) when `index >= bits_.size()`. -/
def elementRead (bits : List Bool) (index : Nat) : Except Unit Bool :=
  match bits.get? index with
  | some b => Except.ok b
  | none => Except.error ()

/-- Writing through the reference returned by `operator[](std::size_t index)`
(`bits_.at(index)`): bounds-checked; on success the bit at `index` is replaced,
on failure the exception propagates and the vector is untouched. -/
def elementWrite (bits : List Bool) (index : Nat) (value : Bool) :
    Except Unit (List Bool) :=
  if index < bits.length then Except.ok (bits.set index value)
  else Except.error ()

/-- Shared shape of `operator&`, `operator|`, `operator^`:
`size = std::min(bits_.size(), other.size()); for (i = 0; i < size; ++i)
set.emplace_back(op(other[i], bits_[i])); return dynamic_bitset(set);` — the
returned object goes through the `std::vector<bool>` constructor of
`dynamic_bitset<N>`.  All accesses are in range (`i < size ≤` both lengths),
so `getD` defaults are never used. -/
def bitwiseNew (op : Bool → Bool → Bool) (N : Nat) (bits other : List Bool) :
    List Bool :=
  let size := min bits.length other.length
  fromVector N ((List.range size).map fun i => op (other.getD i false) (bits.getD i false))

/-- `operator&(const dynamic_bitset &other)`: element op `other[i] && bits_[i]`. -/
def opAnd (N : Nat) (bits other : List Bool) : List Bool :=
  bitwiseNew (fun x y => x && y) N bits other

/-- `operator|(const dynamic_bitset &other)`: element op `other[i] || bits_[i]`. -/
def opOr (N : Nat) (bits other : List Bool) : List Bool :=
  bitwiseNew (fun x y => x || y) N bits other

/-- `operator^(const dynamic_bitset &other)`: element op `other[i] ^ bits_[i]`
(on `bool` operands, `^` is exactly inequality). -/
def opXor (N : Nat) (bits other : List Bool) : List Bool :=
  bitwiseNew (fun x y => x != y) N bits other

/-- Loop shared by `operator&=`, `operator|=`, `operator^=`:
`for (i = 0; i < size; ++i) bits_[i] = op(bits_[i], other[i]);` — `i` starts
at the third argument, the fourth is the remaining trip count.  All accesses
are in range, so `getD` defaults are never used. -/
def compoundLoop (op : Bool → Bool → Bool) :
    List Bool → List Bool → Nat → Nat → List Bool
  | bits, _, _, 0 => bits
  | bits, other, i, Nat.succ c =>
    compoundLoop op (bits.set i (op (bits.getD i false) (other.getD i false)))
      other (i + 1) c

/-- `operator&=`: `size = min(...); for (...) bits_[i] = bits_[i] && other.bits_[i];`. -/
def opAndEq (bits other : List Bool) : List Bool :=
  compoundLoop (fun x y => x && y) bits other 0 (min bits.length other.length)

/-- `operator|=`: `bits_[i] = bits_[i] || other.bits_[i];` over the same range. -/
def opOrEq (bits other : List Bool) : List Bool :=
  compoundLoop (fun x y => x || y) bits other 0 (min bits.length other.length)

/-- `operator^=`: `bits_[i] = bits_[i] ^ other.bits_[i];` over the same range. -/
def opXorEq (bits other : List Bool) : List Bool :=
  compoundLoop (fun x y => x != y) bits other 0 (min bits.length other.length)

/-- Fill loop `for (i = start; i != past-the-count; ++i) bits_[i] = false;`
(`c` is the remaining trip count, writes go to `start, start+1, ...`). -/
def fillFalseAux : List Bool → Nat → Nat → List Bool
  | bits, _, 0 => bits
  | bits, i, Nat.succ c => fillFalseAux (bits.set i false) (i + 1) c

/-- First loop of `operator<<=`: `for (i = 0; i < bits_.size(); ++i)
bits_[i] = bits_[i + shift_amount];`.  The read `bits_[i + shift_amount]` is an
unchecked `std::vector<bool>` access; when `i + shift_amount` falls outside the
vector the C++ behaviour is undefined, modelled here as `Except.error`.  `c` is
the remaining trip count (the vector length never changes inside the loop). -/
def shlLoop (shift_amount : Nat) : List Bool → Nat → Nat → Except Unit (List Bool)
  | bits, _, 0 => Except.ok bits
  | bits, i, Nat.succ c =>
    match bits.get? (i + shift_amount) with
    | some v => shlLoop shift_amount (bits.set i v) (i + 1) c
    | none => Except.error ()

/-- `operator<<=(std::size_t shift_amount)`: if `shift_amount >= bits_.size()`
assign all `false`; otherwise run the shift loop over every position, then
fill positions `[size - shift_amount, size)` with `false`. -/
def opShlEq (bits : List Bool) (shift_amount : Nat) : Except Unit (List Bool) :=
  if bits.length ≤ shift_amount then
    Except.ok (List.replicate bits.length false)
  else
    match shlLoop shift_amount bits 0 bits.length with
    | Except.ok b => Except.ok (fillFalseAux b (b.length - shift_amount) shift_amount)
    | Except.error e => Except.error e

/-- Main loop of `operator>>=`: `for (std::size_t i = bits_.size() - 1;
i >= shift_amount; --i) bits_[i] = bits_[i - shift_amount];`.  `i` is a
`std::size_t`, so `--i` at `i = 0` wraps to `2 ^ 64 - 1`; both vector accesses
are unchecked, and an out-of-range one is undefined behaviour, modelled as
`Except.error`.  The loop need not terminate (it does not when
`shift_amount = 0`), so it carries a fuel argument: `none` means the fuel ran
out before the loop exited or faulted. -/
def shrLoop (shift_amount : Nat) :
    List Bool → Nat → Nat → Option (Except Unit (List Bool))
  | _, _, 0 => none
  | bits, i, Nat.succ f =>
    if shift_amount ≤ i then
      if i < bits.length then
        if hr : i - shift_amount < bits.length then
          shrLoop shift_amount (bits.set i (bits.get ⟨i - shift_amount, hr⟩))
            ((i + (wordMod - 1)) % wordMod) f
        else some (Except.error ())
      else some (Except.error ())
    else some (Except.ok bits)

/-- `operator>>=(std::size_t shift_amount)`: if `shift_amount >= bits_.size()`
assign all `false`; otherwise run the backward shift loop starting at
`bits_.size() - 1` (with fuel `bits_.size() + 1`, enough for every terminating
run and enough to reach the first out-of-range access of a non-terminating
one), then fill positions `[0, shift_amount)` with `false`. -/
def opShrEq (bits : List Bool) (shift_amount : Nat) :
    Option (Except Unit (List Bool)) :=
  if bits.length ≤ shift_amount then
    some (Except.ok (List.replicate bits.length false))
  else
    match shrLoop shift_amount bits (bits.length - 1) (bits.length + 1) with
    | some (Except.ok b) => some (Except.ok (fillFalseAux b 0 shift_amount))
    | r => r

/-- Modelled from the spec: "interpret the sequence as a big-endian binary
number and compute its value" — the mathematical value of the bit string, each
set bit contributing `2 ^ (number of positions to its right)`. -/
def bigEndianValue : List Bool → Nat
  | [] => 0
  | bit :: rest => (if bit then 1 else 0) * 2 ^ rest.length + bigEndianValue rest

/-! ### Supporting lemmas -/

theorem add_paddingAux_eq (base : List Bool) (c : Nat) :
    add_paddingAux base c = List.replicate c false ++ base := by
  induction c generalizing base with
  | zero => rfl
  | succ c ih =>
    rw [add_paddingAux, ih]
    simp [List.replicate_succ']

theorem add_padding_of_nonpos (base : List Bool) (n : Int) (h : n ≤ 0) :
    add_padding base n = base := by
  rw [add_padding, Int.toNat_of_nonpos h, add_paddingAux]

theorem add_padding_length (base : List Bool) (n : Int) :
    (add_padding base n).length = n.toNat + base.length := by
  rw [add_padding, add_paddingAux_eq]
  simp

/-- When the source already has at least `N` entries the vector constructor of
`dynamic_bitset<N>` leaves it untouched (the padding count is non-positive). -/
theorem fromVector_of_le (N : Nat) (binaries : List Bool)
    (h : N ≤ binaries.length) : fromVector N binaries = binaries := by
  apply add_padding_of_nonpos
  omega

/-- Every `dynamic_bitset<N>` reachable through the constructors has at least
`N` stored bits; this is the invariant form for the vector constructor. -/
theorem fromVector_length (N : Nat) (binaries : List Bool) :
    N ≤ (fromVector N binaries).length := by
  rw [fromVector, add_padding_length]
  omega

theorem bitwiseNew_length (op : Bool → Bool → Bool) (N : Nat) (a b : List Bool)
    (ha : N ≤ a.length) (hb : N ≤ b.length) :
    (bitwiseNew op N a b).length = min a.length b.length := by
  rw [bitwiseNew, fromVector_of_le]
  · simp
  · simp
    omega

theorem bitwiseNew_getD (op : Bool → Bool → Bool) (N : Nat) (a b : List Bool)
    (ha : N ≤ a.length) (hb : N ≤ b.length) (i : Nat)
    (hi : i < min a.length b.length) :
    (bitwiseNew op N a b).getD i false = op (b.getD i false) (a.getD i false) := by
  rw [bitwiseNew, fromVector_of_le _ _ (by simp; omega)]
  rw [List.getD_eq_getElem?_getD, List.getElem?_map, List.getElem?_range hi]
  rfl

theorem compoundLoop_length (op : Bool → Bool → Bool) :
    ∀ (c : Nat) (bits other : List Bool) (i : Nat),
      (compoundLoop op bits other i c).length = bits.length
  | 0, _, _, _ => rfl
  | Nat.succ c, bits, other, i => by
    rw [compoundLoop, compoundLoop_length op c, List.length_set]

theorem compoundLoop_getD_frame (op : Bool → Bool → Bool) (c : Nat) :
    ∀ (bits other : List Bool) (i j : Nat), i + c ≤ j →
      (compoundLoop op bits other i c).getD j false = bits.getD j false := by
  induction c with
  | zero =>
    intro bits other i j _
    rfl
  | succ c ih =>
    intro bits other i j h
    rw [compoundLoop, ih _ _ _ _ (by omega), List.getD_eq_getElem?_getD,
      List.getElem?_set_ne (by omega), ← List.getD_eq_getElem?_getD]

/-- The integer constructor also establishes the `≥ N` length invariant. -/
theorem fromInt_length (N : Nat) (value : Int) : N ≤ (fromInt N value).length := by
  rw [fromInt, add_padding_length]
  omega

/-- The string constructor also establishes the `≥ N` length invariant. -/
theorem fromString_length (N : Nat) (s : List Char) :
    N ≤ (fromString N s).length := by
  rw [fromString, string_to_bitset, add_padding_length, List.length_map]
  omega

/-- Decrementing a `std::size_t` loop index: `--i` computes
`(i + 2^64 - 1) % 2^64`, which is `i - 1` for `1 ≤ i ≤ 2^64`. -/
theorem sizeT_decrement (i : Nat) (h1 : 1 ≤ i) (h2 : i ≤ wordMod) :
    (i + (wordMod - 1)) % wordMod = i - 1 := by
  have hW : wordMod = 18446744073709551616 := by norm_num [wordMod]
  rw [hW] at h2 ⊢
  omega

/-- With any positive shift amount `k ≤ c`, the first loop of `operator<<=`
(`c` trips remaining, current index `i`, `i + c` positions to the end) reaches
an index whose read `bits_[i + k]` is past the container bound. -/
theorem shlLoop_fault (k : Nat) (hk : 0 < k) :
    ∀ (c : Nat) (bits : List Bool) (i : Nat), i + c = bits.length → k ≤ c →
      shlLoop k bits i c = Except.error () := by
  intro c
  induction c with
  | zero =>
    intro bits i _ hkc
    omega
  | succ c ih =>
    intro bits i hlen hkc
    cases hread : bits.get? (i + k) with
    | some v =>
      rw [shlLoop, hread]
      have hlt : i + k < bits.length := by
        by_contra hge
        rw [List.get?_eq_none.2 (by omega)] at hread
        exact Option.noConfusion hread
      exact ih (bits.set i v) (i + 1) (by rw [List.length_set]; omega) (by omega)
    | none =>
      rw [shlLoop, hread]

/-- `operator<<=` with any shift amount strictly between `0` and the length
reads past the container bound (the fault the C5 claim denies). -/
theorem opShlEq_fault (bits : List Bool) (k : Nat) (h1 : 0 < k)
    (h2 : k < bits.length) : opShlEq bits k = Except.error () := by
  rw [opShlEq, if_neg (by omega),
    shlLoop_fault k h1 bits.length bits 0 (by omega) (by omega)]

theorem fillFalseAux_length : ∀ (c : Nat) (bits : List Bool) (i : Nat),
    (fillFalseAux bits i c).length = bits.length
  | 0, _, _ => rfl
  | Nat.succ c, bits, i => by
    rw [fillFalseAux, fillFalseAux_length c, List.length_set]

theorem fillFalseAux_frame (c : Nat) :
    ∀ (bits : List Bool) (i j : Nat), j < i ∨ i + c ≤ j →
      (fillFalseAux bits i c).getD j false = bits.getD j false := by
  induction c with
  | zero =>
    intro bits i j _
    rfl
  | succ c ih =>
    intro bits i j h
    rw [fillFalseAux, ih _ (i + 1) j (by omega), List.getD_eq_getElem?_getD,
      List.getElem?_set_ne (by omega), ← List.getD_eq_getElem?_getD]

theorem fillFalseAux_in (c : Nat) :
    ∀ (bits : List Bool) (i j : Nat), i ≤ j → j < i + c → j < bits.length →
      (fillFalseAux bits i c).getD j false = false := by
  induction c with
  | zero =>
    intro bits i j h1 h2 _
    omega
  | succ c ih =>
    intro bits i j h1 h2 hlen
    rw [fillFalseAux]
    by_cases hj : j = i
    · subst hj
      rw [fillFalseAux_frame c _ _ _ (Or.inl (by omega)),
        List.getD_eq_getElem?_getD, List.getElem?_set_self hlen]
      rfl
    · exact ih _ (i + 1) j (by omega) (by omega)
        (by rw [List.length_set]; exact hlen)

/-- Loop invariant of the backward shift loop of `operator>>=` for a positive
shift amount: starting at index `k + n` with enough fuel, the loop terminates
normally, leaves positions outside `[k, k + n]` alone and moves
`bits[j - k]` into every position `j` of `[k, k + n]`. -/
theorem shrLoop_ok (k : Nat) (hk : 0 < k) :
    ∀ (n : Nat) (bits : List Bool) (f : Nat),
      k + n < bits.length → bits.length ≤ wordMod → n + 2 ≤ f →
      ∃ out, shrLoop k bits (k + n) f = some (Except.ok out) ∧
        out.length = bits.length ∧
        (∀ j, j < k → out.getD j false = bits.getD j false) ∧
        (∀ j, k + n < j → out.getD j false = bits.getD j false) ∧
        (∀ j, k ≤ j → j ≤ k + n → out.getD j false = bits.getD (j - k) false) := by
  intro n
  induction n with
  | zero =>
    intro bits f hlen hW hf
    obtain ⟨f', rfl⟩ : ∃ f', f = f' + 2 := ⟨f - 2, by omega⟩
    simp only [Nat.add_zero] at hlen ⊢
    rw [shrLoop, if_pos (Nat.le_refl k), if_pos hlen,
      dif_pos (by omega : k - k < bits.length),
      sizeT_decrement k (by omega) (by omega), shrLoop,
      if_neg (by omega : ¬ k ≤ k - 1)]
    refine ⟨_, rfl, List.length_set .., fun j hj => ?_, fun j hj => ?_,
      fun j hj1 hj2 => ?_⟩
    · rw [List.getD_eq_getElem?_getD, List.getElem?_set_ne (by omega),
        ← List.getD_eq_getElem?_getD]
    · rw [List.getD_eq_getElem?_getD, List.getElem?_set_ne (by omega),
        ← List.getD_eq_getElem?_getD]
    · have hj : j = k := by omega
      rw [hj, List.getD_eq_getElem?_getD, List.getElem?_set_self (by omega),
        List.getD_eq_getElem?_getD,
        List.getElem?_eq_getElem (by omega : k - k < bits.length)]
      simp [List.get_eq_getElem]
  | succ n ih =>
    intro bits f hlen hW hf
    obtain ⟨f', rfl⟩ : ∃ f', f = f' + 1 := ⟨f - 1, by omega⟩
    rw [shrLoop, if_pos (by omega : k ≤ k + (n + 1)),
      if_pos (by omega : k + (n + 1) < bits.length),
      dif_pos (by omega : k + (n + 1) - k < bits.length),
      sizeT_decrement (k + (n + 1)) (by omega) (by omega),
      show k + (n + 1) - 1 = k + n by omega]
    obtain ⟨out, heq, hl, hlow, hhigh, hmid⟩ :=
      ih (bits.set (k + (n + 1)) (bits.get ⟨k + (n + 1) - k, by omega⟩)) f'
        (by rw [List.length_set]; omega) (by rw [List.length_set]; exact hW)
        (by omega)
    refine ⟨out, heq, ?_, fun j hj => ?_, fun j hj => ?_, fun j hj1 hj2 => ?_⟩
    · rw [hl, List.length_set]
    · rw [hlow j hj, List.getD_eq_getElem?_getD, List.getElem?_set_ne (by omega),
        ← List.getD_eq_getElem?_getD]
    · rw [hhigh j (by omega), List.getD_eq_getElem?_getD,
        List.getElem?_set_ne (by omega), ← List.getD_eq_getElem?_getD]
    · by_cases hje : j = k + (n + 1)
      · subst hje
        rw [hhigh _ (by omega), List.getD_eq_getElem?_getD,
          List.getElem?_set_self (by omega), List.getD_eq_getElem?_getD,
          List.getElem?_eq_getElem (by omega : k + (n + 1) - k < bits.length)]
        simp [List.get_eq_getElem]
      · rw [hmid j hj1 (by omega), List.getD_eq_getElem?_getD,
          List.getElem?_set_ne (by omega), ← List.getD_eq_getElem?_getD]

/-- For every positive in-range shift amount, `operator>>=` terminates and
computes the canonical right shift: positions `[k, length)` receive the value
previously at `i - k` and positions `[0, k)` become `false` — confirming that
`shift_amount = 0` (see `shr_zero_fault`) is the only failing case of C4. -/
theorem opShrEq_correct (bits : List Bool) (k : Nat) (h1 : 0 < k)
    (h2 : k < bits.length) (hW : bits.length ≤ wordMod) :
    ∃ out, opShrEq bits k = some (Except.ok out) ∧
      out.length = bits.length ∧
      (∀ i, i < k → out.getD i false = false) ∧
      (∀ i, k ≤ i → i < bits.length →
        out.getD i false = bits.getD (i - k) false) := by
  rw [opShrEq, if_neg (by omega),
    show bits.length - 1 = k + (bits.length - 1 - k) by omega]
  obtain ⟨mid, hmeq, hml, hmlow, hmhigh, hmmid⟩ :=
    shrLoop_ok k h1 (bits.length - 1 - k) bits (bits.length + 1)
      (by omega) hW (by omega)
  rw [hmeq]
  refine ⟨fillFalseAux mid 0 k, rfl, ?_, fun i hi => ?_, fun i hi1 hi2 => ?_⟩
  · rw [fillFalseAux_length, hml]
  · exact fillFalseAux_in k mid 0 i (by omega) (by omega) (by omega)
  · rw [fillFalseAux_frame k mid 0 i (Or.inr (by omega)),
      hmmid i hi1 (by omega)]

theorem bool_char_round (b : Bool) :
    decide ((if b = true then '1' else '0') = '1') = b := by
  cases b <;> decide

/-- Exact value of a bit list read LSB-first (the order `to_ulong` scans),
with no word-size wrap. -/
def lsbValue : List Bool → Nat
  | [] => 0
  | bit :: rest => (if bit then 1 else 0) + 2 * lsbValue rest

theorem to_ulongAux_mod (l : List Bool) :
    ∀ v p : Nat, v < wordMod →
      to_ulongAux l v p = (v + p * lsbValue l) % wordMod := by
  induction l with
  | nil =>
    intro v p hv
    simp [to_ulongAux, lsbValue, Nat.mod_eq_of_lt hv]
  | cons bit rest ih =>
    intro v p hv
    have hW : 0 < wordMod := by norm_num [wordMod]
    rw [to_ulongAux, lsbValue]
    cases bit with
    | false =>
      have key : (v + (p * 2) % wordMod * lsbValue rest) % wordMod =
          (v + p * 2 * lsbValue rest) % wordMod :=
        Nat.ModEq.add_left v (Nat.ModEq.mul_right _ (Nat.mod_modEq _ _))
      show to_ulongAux rest v (p * 2 % wordMod) =
        (v + p * ((0 : Nat) + 2 * lsbValue rest)) % wordMod
      rw [ih v _ hv, key]
      congr 1
      ring
    | true =>
      have key : ((v + p) % wordMod + (p * 2) % wordMod * lsbValue rest) % wordMod =
          (v + p + p * 2 * lsbValue rest) % wordMod :=
        Nat.ModEq.add (Nat.mod_modEq _ _) (Nat.ModEq.mul_right _ (Nat.mod_modEq _ _))
      show to_ulongAux rest ((v + p) % wordMod) (p * 2 % wordMod) =
        (v + p * ((1 : Nat) + 2 * lsbValue rest)) % wordMod
      rw [ih _ _ (Nat.mod_lt _ hW), key]
      congr 1
      ring

theorem lsbValue_append_single (l : List Bool) (b : Bool) :
    lsbValue (l ++ [b]) = lsbValue l + (if b then 1 else 0) * 2 ^ l.length := by
  induction l with
  | nil => simp [lsbValue]
  | cons a l ih =>
    rw [List.cons_append, lsbValue, ih, lsbValue, List.length_cons, pow_succ]
    ring

theorem bigEndianValue_eq_lsb_reverse (bits : List Bool) :
    bigEndianValue bits = lsbValue bits.reverse := by
  induction bits with
  | nil => rfl
  | cons b rest ih =>
    rw [bigEndianValue, List.reverse_cons, lsbValue_append_single, ih,
      List.length_reverse]
    ring

/-- What `to_ulong` really computes: the big-endian value reduced modulo the
`std::size_t` word. -/
theorem to_ulong_mod (bits : List Bool) :
    to_ulong bits = bigEndianValue bits % wordMod := by
  rw [to_ulong, to_ulongAux_mod _ 0 1 (by norm_num [wordMod]),
    bigEndianValue_eq_lsb_reverse]
  simp

/-! ### Claim theorems -/

/-- C1: for every two BitVectors `a` and `b` (every reachable
`dynamic_bitset<N>` stores at least `N` bits, see `fromVector_length`), the
non-assigning AND, OR and XOR return a new BitVector of length
`min (len a) (len b)` whose bit `i` is `a[i] && b[i]`, `a[i] || b[i]`, and
`a[i] != b[i]` respectively. -/
theorem bitwise_new_result (N : Nat) (a b : List Bool)
    (ha : N ≤ a.length) (hb : N ≤ b.length) :
    ((opAnd N a b).length = min a.length b.length ∧
      ∀ i < min a.length b.length,
        (opAnd N a b).getD i false = ((a.getD i false) && (b.getD i false))) ∧
    ((opOr N a b).length = min a.length b.length ∧
      ∀ i < min a.length b.length,
        (opOr N a b).getD i false = ((a.getD i false) || (b.getD i false))) ∧
    ((opXor N a b).length = min a.length b.length ∧
      ∀ i < min a.length b.length,
        (opXor N a b).getD i false = ((a.getD i false) != (b.getD i false))) := by
  refine ⟨⟨bitwiseNew_length _ N a b ha hb, fun i hi => ?_⟩,
    ⟨bitwiseNew_length _ N a b ha hb, fun i hi => ?_⟩,
    ⟨bitwiseNew_length _ N a b ha hb, fun i hi => ?_⟩⟩ <;>
  · simp only [opAnd, opOr, opXor]
    rw [bitwiseNew_getD _ N a b ha hb i hi]
    cases a.getD i false <;> cases b.getD i false <;> rfl

theorem bitwise_new_result_witness :
    0 ≤ ([true, false] : List Bool).length ∧
    0 ≤ ([true] : List Bool).length ∧
    (((opAnd 0 [true, false] [true]).length =
        min ([true, false] : List Bool).length ([true] : List Bool).length ∧
      ∀ i < min ([true, false] : List Bool).length ([true] : List Bool).length,
        (opAnd 0 [true, false] [true]).getD i false =
          ((([true, false] : List Bool).getD i false) &&
            (([true] : List Bool).getD i false))) ∧
    ((opOr 0 [true, false] [true]).length =
        min ([true, false] : List Bool).length ([true] : List Bool).length ∧
      ∀ i < min ([true, false] : List Bool).length ([true] : List Bool).length,
        (opOr 0 [true, false] [true]).getD i false =
          ((([true, false] : List Bool).getD i false) ||
            (([true] : List Bool).getD i false))) ∧
    ((opXor 0 [true, false] [true]).length =
        min ([true, false] : List Bool).length ([true] : List Bool).length ∧
      ∀ i < min ([true, false] : List Bool).length ([true] : List Bool).length,
        (opXor 0 [true, false] [true]).getD i false =
          ((([true, false] : List Bool).getD i false) !=
            (([true] : List Bool).getD i false)))) :=
  ⟨by decide, by decide,
    bitwise_new_result 0 [true, false] [true] (by decide) (by decide)⟩

/-- C2: the in-place `&=`, `|=`, `^=` forms mutate only positions
`0 .. min(len a, len b) - 1` of the left operand: its length is unchanged and
every position at or beyond the minimum keeps its previous value. -/
theorem compound_frame (a b : List Bool) :
    ((opAndEq a b).length = a.length ∧
      ∀ i, min a.length b.length ≤ i →
        (opAndEq a b).getD i false = a.getD i false) ∧
    ((opOrEq a b).length = a.length ∧
      ∀ i, min a.length b.length ≤ i →
        (opOrEq a b).getD i false = a.getD i false) ∧
    ((opXorEq a b).length = a.length ∧
      ∀ i, min a.length b.length ≤ i →
        (opXorEq a b).getD i false = a.getD i false) :=
  ⟨⟨compoundLoop_length _ _ a b 0,
      fun i hi => compoundLoop_getD_frame _ _ a b 0 i (by omega)⟩,
    ⟨compoundLoop_length _ _ a b 0,
      fun i hi => compoundLoop_getD_frame _ _ a b 0 i (by omega)⟩,
    ⟨compoundLoop_length _ _ a b 0,
      fun i hi => compoundLoop_getD_frame _ _ a b 0 i (by omega)⟩⟩

theorem compound_frame_witness :
    (opAndEq [true, true] [false]).length = ([true, true] : List Bool).length ∧
    (opAndEq [true, true] [false]).getD 1 false =
      ([true, true] : List Bool).getD 1 false ∧
    (opOrEq [true, true] [false]).getD 1 false =
      ([true, true] : List Bool).getD 1 false ∧
    (opXorEq [true, true] [false]).getD 1 false =
      ([true, true] : List Bool).getD 1 false :=
  ⟨(compound_frame [true, true] [false]).1.1,
    (compound_frame [true, true] [false]).1.2 1 (by decide),
    (compound_frame [true, true] [false]).2.1.2 1 (by decide),
    (compound_frame [true, true] [false]).2.2.2 1 (by decide)⟩

/-- C6: for every boolean sequence `v` of length `N`, building the BitVector,
converting to its `'0'`/`'1'` string and rebuilding a length-`N` BitVector
from that string gives back the original BitVector. -/
theorem round_trip (N : Nat) (v : List Bool) (h : v.length = N) :
    fromString N (to_string (fromVector N v)) = fromVector N v := by
  have hv : fromVector N v = v := fromVector_of_le N v (by omega)
  rw [hv, fromString, string_to_bitset]
  have hlen : (to_string v).length = N := by simp [to_string, h]
  have hmap : (to_string v).map (fun c => decide (c = '1')) = v := by
    rw [to_string, List.map_map]
    have he : ∀ x ∈ v,
        ((fun c => decide (c = '1')) ∘ fun bit => if bit = true then '1' else '0') x =
          id x := by
      intro x _
      simp only [Function.comp, id]
      exact bool_char_round x
    rw [List.map_congr_left he, List.map_id]
  rw [hmap, hlen]
  exact add_padding_of_nonpos v _ (by omega)

theorem round_trip_witness :
    ([true, false] : List Bool).length = 2 ∧
    fromString 2 (to_string (fromVector 2 [true, false])) =
      fromVector 2 [true, false] :=
  ⟨by decide, round_trip 2 [true, false] (by decide)⟩

/-- C7 (counterexample): on the 65-bit vector with only the leading bit set,
`to_ulong` does not return the big-endian value of the sequence — the
`std::size_t` accumulation wraps modulo `2 ^ 64` and yields `0` instead of
`2 ^ 64`. -/
theorem to_ulong_overflow_cex :
    to_ulong (true :: List.replicate 64 false) ≠
      bigEndianValue (true :: List.replicate 64 false) := by
  decide

/-- C7 (amended): for every BitVector whose big-endian value fits in the
64-bit unsigned word, `to_ulong` returns exactly that value (accumulating
`2 ^ power` per set bit, LSB to MSB); in particular the length-6 BitVector
built from "10101" (padded to "010101") converts to `21`. -/
theorem to_ulong_big_endian (bits : List Bool)
    (h : bigEndianValue bits < wordMod) :
    to_ulong bits = bigEndianValue bits ∧
    to_ulong (fromString 6 ['1', '0', '1', '0', '1']) = 21 :=
  ⟨by rw [to_ulong_mod]; exact Nat.mod_eq_of_lt h, by decide⟩

theorem to_ulong_big_endian_witness :
    bigEndianValue [true, false, true] < wordMod ∧
    (to_ulong [true, false, true] = bigEndianValue [true, false, true] ∧
      to_ulong (fromString 6 ['1', '0', '1', '0', '1']) = 21) :=
  ⟨by decide, to_ulong_big_endian [true, false, true] (by decide)⟩


/-- C3: for every BitVector and every shift amount `k` with `k ≥ length`, both
the left shift and the right shift turn the vector into an all-`false` vector
of the same length, regardless of its starting content. -/
theorem shift_ge_length_clears (bits : List Bool) (k : Nat)
    (h : bits.length ≤ k) :
    opShlEq bits k = Except.ok (List.replicate bits.length false) ∧
    opShrEq bits k = some (Except.ok (List.replicate bits.length false)) := by
  rw [opShlEq, opShrEq, if_pos h, if_pos h]
  exact ⟨rfl, rfl⟩

theorem shift_ge_length_clears_witness :
    ([true, false] : List Bool).length ≤ 3 ∧
    (opShlEq [true, false] 3 =
        Except.ok (List.replicate ([true, false] : List Bool).length false) ∧
      opShrEq [true, false] 3 =
        some (Except.ok (List.replicate ([true, false] : List Bool).length false))) :=
  ⟨by decide, shift_ge_length_clears [true, false] 3 (by decide)⟩

/-- C4 (failing input): right shift by `0` on the length-1 vector `[true]`.
The claim says any shift amount `k` with `0 ≤ k < length` terminates with
positions `[k, length)` shifted and `[0, k)` cleared — for `k = 0` that is the
identity.  Instead, the loop index `i` is a `std::size_t` and the exit
condition `i >= 0` never fails: after processing `i = 0` the index wraps to
`2^64 - 1` and the loop accesses `bits_[2^64 - 1]`, far outside the vector
(undefined behaviour; the loop never exits normally).  The model returns the
out-of-bounds fault outcome. -/
theorem shr_zero_fault : opShrEq [true] 0 = some (Except.error ()) := by
  rfl

/-- C5 (failing input): left shift of `[true, false]` (length 2) by `k = 1`,
which is within `0 < k < length`.  The claim says the operation reads only
positions inside `[0, length)`; instead the first loop runs `i` over the whole
vector and reads `bits_[i + 1]`, so at `i = 1` it reads `bits_[2]`, one past
the container bound (undefined behaviour).  The model faults on that read. -/
theorem shl_oob_read : opShlEq [true, false] 1 = Except.error () := by
  rfl

/-- C8: element access (read or mutate) fails with the IndexOutOfBounds error
exactly when the index is out of the vector's range, and the error is
propagated with the vector unchanged (no new vector is produced); for an
in-range index the read returns the bit at that position and the write
replaces exactly that bit. -/
theorem element_access (bits : List Bool) (index : Nat) (value : Bool) :
    (∀ h : index < bits.length,
      elementRead bits index = Except.ok (bits.get ⟨index, h⟩) ∧
      elementWrite bits index value = Except.ok (bits.set index value)) ∧
    (bits.length ≤ index →
      elementRead bits index = Except.error () ∧
      elementWrite bits index value = Except.error ()) := by
  constructor
  · intro h
    refine ⟨?_, ?_⟩
    · rw [elementRead, List.get?_eq_get h]
    · rw [elementWrite, if_pos h]
  · intro h
    refine ⟨?_, ?_⟩
    · rw [elementRead, List.get?_eq_none.2 h]
    · rw [elementWrite, if_neg (by omega)]

theorem element_access_witness :
    (elementRead [true, false] 1 = Except.ok ([true, false].get ⟨1, by decide⟩) ∧
      elementWrite [true, false] 1 true = Except.ok ([true, false].set 1 true)) ∧
    (elementRead [true, false] 5 = Except.error () ∧
      elementWrite [true, false] 5 true = Except.error ()) :=
  ⟨(element_access [true, false] 1 true).1 (by decide),
    (element_access [true, false] 5 true).2 (by decide)⟩

/-- C9: construction into target length `N` normalizes the source by the
padding rule — with `pad = N - source_length`, if `pad > 0` then `pad` `false`
bits are prepended, and if `pad ≤ 0` the source is used as-is; in particular
`dynamic_bitset<6>(10)` holds `[0,0,1,0,1,0]`. -/
theorem padding_rule (base : List Bool) (n : Int) :
    (0 < n → add_padding base n = List.replicate n.toNat false ++ base) ∧
    (n ≤ 0 → add_padding base n = base) ∧
    fromInt 6 10 = [false, false, true, false, true, false] := by
  refine ⟨fun _ => ?_, fun h => add_padding_of_nonpos base n h, by decide⟩
  rw [add_padding, add_paddingAux_eq]

theorem padding_rule_witness :
    (0 : Int) < 2 ∧
    (add_padding [true] 2 = List.replicate (2 : Int).toNat false ++ [true] ∧
      add_padding [true] (-1) = [true]) :=
  ⟨by decide,
    (padding_rule [true] 2).1 (by decide),
    ((padding_rule [true] (-1)).2.1 (by decide))⟩

/-- C10: on a BitVector of length zero the quantifiers are vacuous — `all()`
is `true`, `any()` is `false`, `none()` is `true`, so `all()` and `none()`
hold simultaneously. -/
theorem quantifiers_empty :
    allQ [] = true ∧ anyQ [] = false ∧ noneQ [] = true := by
  decide

end DynBitset
